import Mathlib

/-!
Shallow embedding of `src/linter.py` (`lint_rtl`), a line-oriented RTL lint
engine.  The Python code applies six inline regex checks to every line of the
input; one check (label pairing) additionally scans forward over
`lines[line_num:]`.  Regexes are embedded as explicit pattern terms over a
small backtracking matcher that mirrors Python `re.search` semantics
(leftmost start position, greedy quantifiers, left-biased alternation,
backtracking continuations, capture groups, ASCII character classes).
-/

namespace RtlLint

/-- Character classes occurring in the source regexes: `.`, `\s`, `\w`, `\d`
and literal characters.  ASCII semantics, as in the source's usage. -/
inductive CharClass where
  | any
  | space
  | word
  | digit
  | lit (d : Char)
deriving DecidableEq, Repr

/-- Which characters a class matches.  `.` matches anything but a newline;
`\s` is whitespace; `\w` is alphanumeric or underscore; `\d` is a digit. -/
def CharClass.test : CharClass → Char → Bool
  | .any, c => !(c == '\n')
  | .space, c => c == ' ' || c == '\t' || c == '\n' || c == '\x0b' || c == '\x0c' || c == '\x0d'
  | .word, c => c.isAlphanum || c == '_'
  | .digit, c => c.isDigit
  | .lit d, c => c == d

/-- Regex syntax used by the six patterns in `lint_rtl`.  Quantifiers (`*`,
and `+` via `plusC`) only ever apply to single-character classes in the
source patterns, which is what this syntax supports. -/
inductive RE where
  | eps
  | cls (c : CharClass)
  | star (c : CharClass)
  | cat (a b : RE)
  | alt (a b : RE)
  | opt (a : RE)
  | wb
  | group (n : Nat) (a : RE)
deriving DecidableEq, Repr

/-- `X+` is `X X*` (same greedy backtracking order as Python). -/
def plusC (c : CharClass) : RE := RE.cat (.cls c) (.star c)

/-- Concatenation of a list of regex pieces. -/
def rcat (l : List RE) : RE := l.foldr RE.cat RE.eps

/-- A literal string as a regex. -/
def rstr (s : String) : RE := rcat (s.data.map (fun c => RE.cls (.lit c)))

/-- Is an optional character a word character (for `\b`)?  `none` stands for
the edge of the string and counts as non-word, as in Python. -/
def wordO : Option Char → Bool
  | none => false
  | some c => CharClass.test .word c

/-- All states `(last consumed char, remaining input)` reachable by consuming
a run of characters of class `c`, in increasing order of consumption. -/
def classRun (c : CharClass) (p : Option Char) (cs : List Char) :
    List (Option Char × List Char) :=
  (p, cs) ::
    match cs with
    | [] => []
    | x :: xs => if c.test x then classRun c (some x) xs else []

/-- Backtracking matcher in continuation-passing style, mirroring Python's
`re` engine on the fragment used by the source: greedy `*`, left-biased `|`,
greedy `?`, word boundaries, capture groups recorded as `(index, text)`
pairs (most recent first).  `p` is the character just before the current
position (for `\b`). -/
def mrun {A : Type} : RE → Option Char → List Char → List (Nat × String) →
    (Option Char → List Char → List (Nat × String) → Option A) → Option A
  | .eps, p, cs, gs, k => k p cs gs
  | .cls c, _, cs, gs, k =>
    match cs with
    | [] => none
    | x :: xs => if c.test x then k (some x) xs gs else none
  | .star c, p, cs, gs, k =>
    (classRun c p cs).reverse.findSome? (fun s => k s.1 s.2 gs)
  | .cat a b, p, cs, gs, k =>
    mrun a p cs gs (fun p' cs' gs' => mrun b p' cs' gs' k)
  | .alt a b, p, cs, gs, k =>
    match mrun a p cs gs k with
    | some r => some r
    | none => mrun b p cs gs k
  | .opt a, p, cs, gs, k =>
    match mrun a p cs gs k with
    | some r => some r
    | none => k p cs gs
  | .wb, p, cs, gs, k =>
    if wordO p != wordO cs.head? then k p cs gs else none
  | .group n a, p, cs, gs, k =>
    mrun a p cs gs (fun p' cs' gs' =>
      k p' cs' ((n, String.mk (cs.take (cs.length - cs'.length))) :: gs'))

/-- Try a full match at each start position from left to right, as
`re.search` does; returns the capture groups of the first match found. -/
def searchFrom (r : RE) (p : Option Char) (cs : List Char) :
    Option (List (Nat × String)) :=
  match mrun r p cs [] (fun _ _ gs => some gs) with
  | some gs => some gs
  | none =>
    match cs with
    | [] => none
    | x :: xs => searchFrom r (some x) xs

/-- `re.search(pattern, line)`: `some groups` iff the pattern matches
somewhere in the line. -/
def research (r : RE) (s : String) : Option (List (Nat × String)) :=
  searchFrom r none s.data

/-- `match.group(n)`: the most recently recorded capture for group `n`,
`none` if the group did not participate in the match. -/
def lookupG (gs : List (Nat × String)) (n : Nat) : Option String :=
  match gs with
  | [] => none
  | (m, s) :: rest => if m = n then some s else lookupG rest n

/-- Python truthiness of `match.group(n)`: participated and non-empty. -/
def groupTruthy (gs : List (Nat × String)) (n : Nat) : Bool :=
  match lookupG gs n with
  | none => false
  | some s => !(s == "")

/-! ## The six regex patterns of `lint_rtl`, one per source check. -/

/-- `\b(integer|time|real)\b(\s*\[.+:.*\])?\s*(\w+)\s*;` -/
def scalarPat : RE := rcat [
  RE.wb,
  RE.group 1 (RE.alt (rstr "integer") (RE.alt (rstr "time") (rstr "real"))),
  RE.wb,
  RE.opt (RE.group 2 (rcat [RE.star .space, RE.cls (.lit '['), plusC .any,
    RE.cls (.lit ':'), RE.star .any, RE.cls (.lit ']')])),
  RE.star .space,
  RE.group 3 (plusC .word),
  RE.star .space,
  RE.cls (.lit ';')]

/-- `\bparameter\s+integer\s+real\b` -/
def paramPat : RE := rcat [
  RE.wb, rstr "parameter", plusC .space, rstr "integer", plusC .space,
  rstr "real", RE.wb]

/-- `\bmodule\b.*\((.*\b(input|output|inout)\b\s+\w+\s+\w*\s*=\s*.+)\);` -/
def modulePat : RE := rcat [
  RE.wb, rstr "module", RE.wb, RE.star .any, RE.cls (.lit '('),
  RE.group 1 (rcat [RE.star .any, RE.wb,
    RE.group 2 (RE.alt (rstr "input") (RE.alt (rstr "output") (rstr "inout"))),
    RE.wb, plusC .space, plusC .word, plusC .space, RE.star .word,
    RE.star .space, RE.cls (.lit '='), RE.star .space, plusC .any]),
  RE.cls (.lit ')'), RE.cls (.lit ';')]

/-- `\bassign\b\s+\w+\s*=\s*\(.*\)\d+;` -/
def assignPat : RE := rcat [
  RE.wb, rstr "assign", RE.wb, plusC .space, plusC .word, RE.star .space,
  RE.cls (.lit '='), RE.star .space, RE.cls (.lit '('), RE.star .any,
  RE.cls (.lit ')'), plusC .digit, RE.cls (.lit ';')]

/-- `\bbegin\s*:\s*(\w+)` -/
def beginPat : RE := rcat [
  RE.wb, rstr "begin", RE.star .space, RE.cls (.lit ':'), RE.star .space,
  RE.group 1 (plusC .word)]

/-- `\bend\s*:\s*(\w+)` -/
def endPat : RE := rcat [
  RE.wb, rstr "end", RE.star .space, RE.cls (.lit ':'), RE.star .space,
  RE.group 1 (plusC .word)]

/-- `\b(input|output|inout)\b\s+\w+\s*\[\d+:\d+\]\s*;` -/
def portRangePat : RE := rcat [
  RE.wb,
  RE.group 1 (RE.alt (rstr "input") (RE.alt (rstr "output") (rstr "inout"))),
  RE.wb, plusC .space, plusC .word, RE.star .space, RE.cls (.lit '['),
  plusC .digit, RE.cls (.lit ':'), plusC .digit, RE.cls (.lit ']'),
  RE.star .space, RE.cls (.lit ';')]

/-! ## Diagnostics and message strings -/

/-- One finding: the `(line_number, error_message, suggestion)` tuple that
`lint_rtl` appends to `errors`. -/
structure Diagnostic where
  line_number : Nat
  message : String
  suggestion : String
deriving DecidableEq, Repr

/-- A single-quote character, as it appears inside the source's f-strings. -/
def sq : String := "\x27"

/-- The `"Line {line_num}: "` prefix shared by every error message. -/
def lineTag (i : Nat) : String := "Line " ++ toString i ++ ": "

def scalarMsg (i : Nat) (t v : String) : String :=
  lineTag i ++ (t ++ " variable " ++ sq ++ v ++ sq ++
    " may not have bit-range specification.")

def scalarSugg (v : String) : String :=
  "Remove the bit-range specification for " ++ sq ++ v ++ sq ++
    " or use a valid type that supports bit-ranges."

def paramMsg (i : Nat) : String :=
  lineTag i ++ ("Syntax error near " ++ sq ++ "real" ++ sq ++
    " - Illegal use of " ++ sq ++ "integer real" ++ sq ++ " detected.")

def paramSugg : String :=
  "Use either " ++ sq ++ "integer" ++ sq ++ " or " ++ sq ++ "real" ++ sq ++
    " as the type, but not both together."

def moduleMsg (i : Nat) : String :=
  lineTag i ++
    "You cannot directly assign a default value within the port declaration itself."

def moduleSugg : String :=
  "Move the default value assignment to an " ++ sq ++ "initial" ++ sq ++
    " block inside the module."

def assignMsg (i : Nat) : String :=
  lineTag i ++ "Syntax error - Invalid numeric literal in assign statement."

def assignSugg : String :=
  "Use a valid numeric literal format, such as " ++ sq ++ "4" ++ sq ++
    "b0101" ++ sq ++ " or " ++ sq ++ "8" ++ sq ++ "d55" ++ sq ++ "."

def labelMsg (i : Nat) (bl el : String) : String :=
  lineTag i ++ ("Mismatched labels in begin-end block. " ++ sq ++ "begin : " ++
    bl ++ sq ++ " does not match " ++ sq ++ "end : " ++ el ++ sq ++ ".")

def labelSugg : String :=
  "Ensure the labels for " ++ sq ++ "begin" ++ sq ++ " and " ++ sq ++ "end" ++
    sq ++ " blocks match."

def portRangeMsg (i : Nat) : String :=
  lineTag i ++
    "Port declaration with misplaced bit-range detected. Bit-ranges should be declared before the variable name."

def portRangeSugg : String :=
  "Declare the bit-range before the variable name, e.g., " ++ sq ++
    "input [2:0] x;" ++ sq ++ "."

/-! ## The six checks of `lint_rtl`, in source order. -/

/-- Check 1: scalar (`integer`/`time`/`real`) declaration; a diagnostic is
appended only when the optional bit-range group participated
(`if match.group(2):`). -/
def ruleScalar (i : Nat) (line : String) : List Diagnostic :=
  match research scalarPat line with
  | none => []
  | some gs =>
    if groupTruthy gs 2 then
      [⟨i, scalarMsg i ((lookupG gs 1).getD "") ((lookupG gs 3).getD ""),
        scalarSugg ((lookupG gs 3).getD "")⟩]
    else []

/-- Check 2: illegal `parameter integer real`. -/
def ruleParamIR (i : Nat) (line : String) : List Diagnostic :=
  match research paramPat line with
  | none => []
  | some _ => [⟨i, paramMsg i, paramSugg⟩]

/-- Check 3: module port declaration with inline default value. -/
def rulePortDefault (i : Nat) (line : String) : List Diagnostic :=
  match research modulePat line with
  | none => []
  | some _ => [⟨i, moduleMsg i, moduleSugg⟩]

/-- Check 4: invalid numeric literal in an assign statement. -/
def ruleAssign (i : Nat) (line : String) : List Diagnostic :=
  match research assignPat line with
  | none => []
  | some _ => [⟨i, assignMsg i, assignSugg⟩]

/-- The source's inner loop over `lines[line_num:]`: stop at the first line
matching `end : M`; emit one diagnostic (at the `begin`'s line number) iff
the labels differ, then break; if no line matches, emit nothing. -/
def scanEnd (ls : List String) (i : Nat) (bl : String) : List Diagnostic :=
  match ls with
  | [] => []
  | l :: rest =>
    match research endPat l with
    | some gs =>
      if bl = (lookupG gs 1).getD "" then []
      else [⟨i, labelMsg i bl ((lookupG gs 1).getD ""), labelSugg⟩]
    | none => scanEnd rest i bl

/-- Check 5: mismatched begin/end labels.  The source scans
`lines[line_num:]`, i.e. the suffix starting at the `begin` line itself. -/
def ruleLabel (allLines : List String) (i : Nat) (line : String) :
    List Diagnostic :=
  match research beginPat line with
  | none => []
  | some gs => scanEnd (allLines.drop i) i ((lookupG gs 1).getD "")

/-- Check 6: port declaration with a misplaced bit-range. -/
def rulePortRange (i : Nat) (line : String) : List Diagnostic :=
  match research portRangePat line with
  | none => []
  | some _ => [⟨i, portRangeMsg i, portRangeSugg⟩]

/-- All checks applied to one line, in the order they appear in the source
body of `lint_rtl`. -/
def lintLine (allLines : List String) (i : Nat) (line : String) :
    List Diagnostic :=
  ruleScalar i line ++ ruleParamIR i line ++ rulePortDefault i line ++
    ruleAssign i line ++ ruleLabel allLines i line ++ rulePortRange i line

/-- The rule set as an ordered list (registration order = source order). -/
def ruleSet : List (List String → Nat → String → List Diagnostic) :=
  [fun _ i l => ruleScalar i l,
   fun _ i l => ruleParamIR i l,
   fun _ i l => rulePortDefault i l,
   fun _ i l => ruleAssign i l,
   fun all i l => ruleLabel all i l,
   fun _ i l => rulePortRange i l]

/-- Python line-break characters recognized by `str.splitlines`. -/
def isLineBreak (c : Char) : Bool :=
  c == '\n' || c == '\x0d' || c == '\x0b' || c == '\x0c' || c == '\x1c' ||
    c == '\x1d' || c == '\x1e' || c == '\x85' || c == '\u2028' || c == '\u2029'

/-- Worker for `str.splitlines`: `acc` is the reversed current line and
`afterCR` records whether the previous character was a carriage return, so
that a `"\r\n"` pair counts as a single line break. -/
def splitlinesAux : List Char → Bool → List Char → List String
  | [], _, acc => if acc.isEmpty then [] else [String.mk acc.reverse]
  | c :: cs, afterCR, acc =>
    if c == '\n' && afterCR then splitlinesAux cs false acc
    else if isLineBreak c then
      String.mk acc.reverse :: splitlinesAux cs (c == '\x0d') []
    else splitlinesAux cs false (c :: acc)

/-- `rtl_code.splitlines()`. -/
def splitlines (s : String) : List String := splitlinesAux s.data false []

/-- The driver loop `for line_num, line in enumerate(lines, 0): ...`. -/
def lintAux (allLines : List String) : Nat → List String → List Diagnostic
  | _, [] => []
  | i, l :: rest => lintLine allLines i l ++ lintAux allLines (i + 1) rest

/-- `lint_rtl`: split the input into lines and run every check on every
line, collecting the diagnostics in order.  Total by construction. -/
def lint_rtl (code : String) : List Diagnostic :=
  lintAux (splitlines code) 0 (splitlines code)

/-- Modelled from the spec: the label-pairing scan as §4.5 describes it,
"scan forward through subsequent lines in order starting at *i+1*" — i.e.
over `lines.drop (i+1)` instead of the source's `lines[line_num:]`.  Used
only to compare the spec's wording against the code. -/
def ruleLabelSpecScan (allLines : List String) (i : Nat) (line : String) :
    List Diagnostic :=
  match research beginPat line with
  | none => []
  | some gs => scanEnd (allLines.drop (i + 1)) i ((lookupG gs 1).getD "")

/-! ## Derived notions used to state and prove the claims -/

/-- The label of the first line in `ls` matching `end : M`, if any. -/
def firstEndLabel : List String → Option String
  | [] => none
  | l :: rest =>
    match research endPat l with
    | some gs => some ((lookupG gs 1).getD "")
    | none => firstEndLabel rest

/-- What the label-pairing scan emits, as a function of the first `end`
label it encounters: nothing if there is none or it matches, one mismatch
diagnostic at the `begin`'s line otherwise. -/
def labelVerdict (i : Nat) (bl : String) : Option String → List Diagnostic
  | none => []
  | some el => if bl = el then [] else [⟨i, labelMsg i bl el, labelSugg⟩]

/-- Whitespace in the sense of Python `str` (the regex `\s` set together
with the `splitlines` line-break set; ASCII scope plus NEL/LS/PS). -/
def isPySpace (c : Char) : Bool := CharClass.test .space c || isLineBreak c

/-- Last character of `w`, falling back to `p` when `w` is empty: the
character just before the position that follows `w`. -/
def lastO (p : Option Char) (w : List Char) : Option Char :=
  match w.getLast? with
  | none => p
  | some c => some c

/-- First character of `w`, falling back to `n` when `w` is empty. -/
def headO (w : List Char) (n : Option Char) : Option Char :=
  match w with
  | [] => n
  | x :: _ => some x

/-- `LangB r p w n g`: the word `w` is matched by `r` when the character
before it is `p` and the character after it is `n`, recording capture
groups `g` (most recent first, as the matcher does). -/
inductive LangB : RE → Option Char → List Char → Option Char →
    List (Nat × String) → Prop where
  | eps (p n) : LangB .eps p [] n []
  | cls (c x p n) : c.test x = true → LangB (.cls c) p [x] n []
  | starNil (c p n) : LangB (.star c) p [] n []
  | starCons (c x xs p n) : c.test x = true → LangB (.star c) (some x) xs n [] →
      LangB (.star c) p (x :: xs) n []
  | cat (a b p n w1 w2 g1 g2) : LangB a p w1 (headO w2 n) g1 →
      LangB b (lastO p w1) w2 n g2 → LangB (.cat a b) p (w1 ++ w2) n (g2 ++ g1)
  | altL (a b p w n g) : LangB a p w n g → LangB (.alt a b) p w n g
  | altR (a b p w n g) : LangB b p w n g → LangB (.alt a b) p w n g
  | optSome (a p w n g) : LangB a p w n g → LangB (.opt a) p w n g
  | optNone (a p n) : LangB (.opt a) p [] n []
  | wb (p n) : wordO p ≠ wordO n → LangB .wb p [] n []
  | group (k a p w n g) : LangB a p w n g →
      LangB (.group k a) p w n ((k, String.mk w) :: g)

/-- Does every character a class accepts fail to be Python whitespace? -/
def clsNS : CharClass → Bool
  | .any => false
  | .space => false
  | .word => true
  | .digit => true
  | .lit d => !(isPySpace d)

/-- Syntactic check: every word matched by the pattern must contain at
least one non-whitespace character. -/
def hasNS : RE → Bool
  | .eps => false
  | .cls c => clsNS c
  | .star _ => false
  | .cat a b => hasNS a || hasNS b
  | .alt a b => hasNS a && hasNS b
  | .opt _ => false
  | .wb => false
  | .group _ a => hasNS a

/-! ## Structural lemmas about the driver and the label scan -/

theorem scanEnd_eq_verdict (ls : List String) (i : Nat) (bl : String) :
    scanEnd ls i bl = labelVerdict i bl (firstEndLabel ls) := by
  induction ls with
  | nil => rfl
  | cons l rest ih =>
    simp only [scanEnd, firstEndLabel]
    cases hr : research endPat l with
    | none => exact ih
    | some gs => rfl

theorem mem_labelVerdict {d : Diagnostic} {i : Nat} {bl : String}
    {o : Option String} (h : d ∈ labelVerdict i bl o) :
    d.line_number = i ∧ ∃ t, d.message = lineTag i ++ t := by
  cases o with
  | none => simp [labelVerdict] at h
  | some el =>
    by_cases he : bl = el
    · simp [labelVerdict, he] at h
    · simp [labelVerdict, he] at h
      subst h
      exact ⟨rfl, _, rfl⟩

theorem mem_ruleScalar {d : Diagnostic} {i : Nat} {line : String}
    (h : d ∈ ruleScalar i line) :
    d.line_number = i ∧ ∃ t, d.message = lineTag i ++ t := by
  unfold ruleScalar at h
  cases hr : research scalarPat line with
  | none => rw [hr] at h; simp at h
  | some gs =>
    rw [hr] at h
    cases hg : groupTruthy gs 2 with
    | false => simp [hg] at h
    | true =>
      simp [hg] at h
      subst h
      exact ⟨rfl, _, rfl⟩

theorem mem_ruleParamIR {d : Diagnostic} {i : Nat} {line : String}
    (h : d ∈ ruleParamIR i line) :
    d.line_number = i ∧ ∃ t, d.message = lineTag i ++ t := by
  unfold ruleParamIR at h
  cases hr : research paramPat line with
  | none => rw [hr] at h; simp at h
  | some gs =>
    rw [hr] at h
    simp at h
    subst h
    exact ⟨rfl, _, rfl⟩

theorem mem_rulePortDefault {d : Diagnostic} {i : Nat} {line : String}
    (h : d ∈ rulePortDefault i line) :
    d.line_number = i ∧ ∃ t, d.message = lineTag i ++ t := by
  unfold rulePortDefault at h
  cases hr : research modulePat line with
  | none => rw [hr] at h; simp at h
  | some gs =>
    rw [hr] at h
    simp at h
    subst h
    exact ⟨rfl, _, rfl⟩

theorem mem_ruleAssign {d : Diagnostic} {i : Nat} {line : String}
    (h : d ∈ ruleAssign i line) :
    d.line_number = i ∧ ∃ t, d.message = lineTag i ++ t := by
  unfold ruleAssign at h
  cases hr : research assignPat line with
  | none => rw [hr] at h; simp at h
  | some gs =>
    rw [hr] at h
    simp at h
    subst h
    exact ⟨rfl, _, rfl⟩

theorem mem_ruleLabel {d : Diagnostic} {all : List String} {i : Nat}
    {line : String} (h : d ∈ ruleLabel all i line) :
    d.line_number = i ∧ ∃ t, d.message = lineTag i ++ t := by
  unfold ruleLabel at h
  cases hr : research beginPat line with
  | none => rw [hr] at h; simp at h
  | some gs =>
    rw [hr] at h
    dsimp only at h
    rw [scanEnd_eq_verdict] at h
    exact mem_labelVerdict h

theorem mem_rulePortRange {d : Diagnostic} {i : Nat} {line : String}
    (h : d ∈ rulePortRange i line) :
    d.line_number = i ∧ ∃ t, d.message = lineTag i ++ t := by
  unfold rulePortRange at h
  cases hr : research portRangePat line with
  | none => rw [hr] at h; simp at h
  | some gs =>
    rw [hr] at h
    simp at h
    subst h
    exact ⟨rfl, _, rfl⟩

theorem mem_lintLine {d : Diagnostic} {all : List String} {i : Nat}
    {line : String} (h : d ∈ lintLine all i line) :
    d.line_number = i ∧ ∃ t, d.message = lineTag i ++ t := by
  simp only [lintLine, List.mem_append] at h
  rcases h with ((((h | h) | h) | h) | h) | h
  · exact mem_ruleScalar h
  · exact mem_ruleParamIR h
  · exact mem_rulePortDefault h
  · exact mem_ruleAssign h
  · exact mem_ruleLabel h
  · exact mem_rulePortRange h

theorem mem_lintAux {d : Diagnostic} {all : List String} :
    ∀ {rest : List String} {i : Nat}, d ∈ lintAux all i rest →
      i ≤ d.line_number ∧ ∃ t, d.message = lineTag d.line_number ++ t := by
  intro rest
  induction rest with
  | nil => intro i h; simp [lintAux] at h
  | cons l rs ih =>
    intro i h
    simp only [lintAux, List.mem_append] at h
    rcases h with h | h
    · obtain ⟨hln, ht⟩ := mem_lintLine h
      exact ⟨le_of_eq hln.symm, by rw [hln]; exact ht⟩
    · obtain ⟨hge, ht⟩ := ih h
      exact ⟨by omega, ht⟩

theorem pairwise_const_line {l : List Diagnostic} {i : Nat}
    (h : ∀ d ∈ l, d.line_number = i) :
    l.Pairwise (fun a b => a.line_number ≤ b.line_number) := by
  induction l with
  | nil => exact List.Pairwise.nil
  | cons x xs ih =>
    refine List.Pairwise.cons ?_ (ih (fun d hd => h d (List.mem_cons_of_mem x hd)))
    intro b hb
    rw [h x (List.mem_cons_self x xs), h b (List.mem_cons_of_mem x hb)]

theorem pairwise_lintAux (all : List String) :
    ∀ (rest : List String) (i : Nat),
      (lintAux all i rest).Pairwise (fun a b => a.line_number ≤ b.line_number) := by
  intro rest
  induction rest with
  | nil => intro i; simp [lintAux]
  | cons l rs ih =>
    intro i
    simp only [lintAux]
    refine List.pairwise_append.mpr
      ⟨pairwise_const_line (fun d hd => (mem_lintLine hd).1), ih (i + 1), ?_⟩
    intro a ha b hb
    have h1 := (mem_lintLine ha).1
    have h2 := (mem_lintAux hb).1
    omega

theorem length_labelVerdict (i : Nat) (bl : String) (o : Option String) :
    (labelVerdict i bl o).length ≤ 1 := by
  cases o with
  | none => simp [labelVerdict]
  | some el =>
    by_cases he : bl = el <;> simp [labelVerdict, he]

theorem length_ruleScalar (i : Nat) (line : String) :
    (ruleScalar i line).length ≤ 1 := by
  unfold ruleScalar
  cases research scalarPat line with
  | none => simp
  | some gs => cases hg : groupTruthy gs 2 <;> simp [hg]

theorem length_ruleParamIR (i : Nat) (line : String) :
    (ruleParamIR i line).length ≤ 1 := by
  unfold ruleParamIR
  cases research paramPat line <;> simp

theorem length_rulePortDefault (i : Nat) (line : String) :
    (rulePortDefault i line).length ≤ 1 := by
  unfold rulePortDefault
  cases research modulePat line <;> simp

theorem length_ruleAssign (i : Nat) (line : String) :
    (ruleAssign i line).length ≤ 1 := by
  unfold ruleAssign
  cases research assignPat line <;> simp

theorem length_ruleLabel (all : List String) (i : Nat) (line : String) :
    (ruleLabel all i line).length ≤ 1 := by
  unfold ruleLabel
  cases research beginPat line with
  | none => simp
  | some gs =>
    dsimp only
    rw [scanEnd_eq_verdict]
    exact length_labelVerdict _ _ _

theorem length_rulePortRange (i : Nat) (line : String) :
    (rulePortRange i line).length ≤ 1 := by
  unfold rulePortRange
  cases research portRangePat line <;> simp

theorem length_lintLine (all : List String) (i : Nat) (line : String) :
    (lintLine all i line).length ≤ 6 := by
  simp only [lintLine, List.length_append]
  have h1 := length_ruleScalar i line
  have h2 := length_ruleParamIR i line
  have h3 := length_rulePortDefault i line
  have h4 := length_ruleAssign i line
  have h5 := length_ruleLabel all i line
  have h6 := length_rulePortRange i line
  omega

theorem length_lintAux (all : List String) :
    ∀ (rest : List String) (i : Nat),
      (lintAux all i rest).length ≤ rest.length * 6 := by
  intro rest
  induction rest with
  | nil => intro i; simp [lintAux]
  | cons l rs ih =>
    intro i
    simp only [lintAux, List.length_append, List.length_cons]
    have h1 := length_lintLine all i l
    have h2 := ih (i + 1)
    calc (lintLine all i l).length + (lintAux all (i + 1) rs).length
        ≤ 6 + rs.length * 6 := by omega
      _ = (rs.length + 1) * 6 := by ring

/-! ## Claim theorems (structural claims) -/

/-- C1, counterexample: the claim says the label-pairing forward scan visits
only the lines after the `begin` (starting at position i+1) and never
examines the `begin` line itself.  On the one-line input
`"begin : a end : b"` the source pairs the `begin` with the `end : b` on the
very same line and emits a mismatch diagnostic, whereas a scan over strictly
subsequent lines (`ruleLabelSpecScan`, the spec's wording) finds no `end`
line at all and emits nothing. -/
theorem c1_counterexample :
    ruleLabel ["begin : a end : b"] 0 "begin : a end : b" =
      [⟨0, labelMsg 0 "a" "b", labelSugg⟩] ∧
    ruleLabelSpecScan ["begin : a end : b"] 0 "begin : a end : b" = [] ∧
    lint_rtl "begin : a end : b" = [⟨0, labelMsg 0 "a" "b", labelSugg⟩] :=
  ⟨by decide, by decide, by decide⟩

/-- C1, amended: for every input whose line at 0-based position i matches
`begin : L`, the pairing result is determined by the first `end : M` match
in the suffix of the lines starting at position i — the line containing the
`begin` itself is examined first, then the subsequent lines in order. -/
theorem c1_amended (lines : List String) (i : Nat) (gs : List (Nat × String))
    (h : research beginPat (lines.getD i "") = some gs) :
    ruleLabel lines i (lines.getD i "") =
      labelVerdict i ((lookupG gs 1).getD "") (firstEndLabel (lines.drop i)) := by
  unfold ruleLabel
  rw [h]
  exact scanEnd_eq_verdict _ _ _

/-- Witness for `c1_amended` at a concrete input. -/
theorem c1_amended_witness :
    ruleLabel ["begin : a", "end : a"] 0 (["begin : a", "end : a"].getD 0 "") =
      labelVerdict 0 ((lookupG [(1, "a")] 1).getD "")
        (firstEndLabel (["begin : a", "end : a"].drop 0)) :=
  c1_amended ["begin : a", "end : a"] 0 [(1, "a")] (by decide)

/-- C3, counterexample: on the one-line input `"begin : p end : q"` there is
no line following the `begin` at all (the input has exactly one line), so by
the claim no diagnostic should be emitted ("if no `end : *` line exists
before the input is exhausted it emits no Diagnostic", reading "following"
as strictly after the `begin` line, which `ruleLabelSpecScan` implements);
the source nevertheless emits a mismatch diagnostic, pairing the `begin`
with the `end : q` of its own line. -/
theorem c3_counterexample :
    lint_rtl "begin : p end : q" = [⟨0, labelMsg 0 "p" "q", labelSugg⟩] ∧
    (splitlines "begin : p end : q").length = 1 ∧
    ruleLabelSpecScan (splitlines "begin : p end : q") 0 "begin : p end : q" = [] :=
  ⟨by decide, by decide, by decide⟩

/-- C3, amended: for every `begin : L` at position i, the rule compares L
only against the label M of the first `end : M` line at or after the
`begin`'s own line: if L differs from M it emits exactly one Diagnostic
whose line number is that of the `begin` and whose message names both
labels; if L equals M it emits nothing; and if no `end : *` line exists in
that suffix it emits nothing. -/
theorem c3_amended (lines : List String) (i : Nat) (gs : List (Nat × String))
    (L : String) (h : research beginPat (lines.getD i "") = some gs)
    (hL : (lookupG gs 1).getD "" = L) :
    (∀ M, firstEndLabel (lines.drop i) = some M → L ≠ M →
      ruleLabel lines i (lines.getD i "") = [⟨i, labelMsg i L M, labelSugg⟩] ∧
      L.data <:+: (labelMsg i L M).data ∧ M.data <:+: (labelMsg i L M).data) ∧
    (firstEndLabel (lines.drop i) = some L →
      ruleLabel lines i (lines.getD i "") = []) ∧
    (firstEndLabel (lines.drop i) = none →
      ruleLabel lines i (lines.getD i "") = []) := by
  subst hL
  unfold ruleLabel
  rw [h]
  dsimp only
  rw [scanEnd_eq_verdict]
  refine ⟨?_, ?_, ?_⟩
  · intro M hM hne
    rw [hM]
    refine ⟨by simp [labelVerdict, hne], ?_, ?_⟩
    · exact ⟨(lineTag i ++ ("Mismatched labels in begin-end block. " ++ sq ++
        "begin : ")).data, (sq ++ " does not match " ++ sq ++ "end : " ++ M ++
        sq ++ ".").data, by simp [labelMsg, lineTag]⟩
    · exact ⟨(lineTag i ++ ("Mismatched labels in begin-end block. " ++ sq ++
        "begin : " ++ ((lookupG gs 1).getD "") ++ sq ++ " does not match " ++
        sq ++ "end : ")).data, (sq ++ ".").data, by simp [labelMsg, lineTag]⟩
  · intro hM
    rw [hM]
    simp [labelVerdict]
  · intro hM
    rw [hM]
    simp [labelVerdict]

/-- Witness for `c3_amended` at a concrete input. -/
theorem c3_amended_witness :
    ruleLabel ["begin : a", "end : b"] 0 (["begin : a", "end : b"].getD 0 "") =
      [⟨0, labelMsg 0 "a" "b", labelSugg⟩] ∧
    "a".data <:+: (labelMsg 0 "a" "b").data ∧
    "b".data <:+: (labelMsg 0 "a" "b").data :=
  (c3_amended ["begin : a", "end : b"] 0 [(1, "a")] "a" (by decide) rfl).1
    "b" (by decide) (by decide)

/-- C2, counterexample: the default rule set does not consist of seven
rules — the source body of `lint_rtl` performs six checks. -/
theorem c2_counterexample : ¬ ruleSet.length = 7 := by decide

/-- C2, amended: the default RuleSet applied by the Linter consists of
exactly six rules, fixed at construction, and the per-line work of the
driver is exactly the concatenation of the outputs of those six rules in
registration order. -/
theorem c2_amended :
    ruleSet.length = 6 ∧
    ∀ (allLines : List String) (i : Nat) (line : String),
      lintLine allLines i line = (ruleSet.map (fun r => r allLines i line)).flatten := by
  refine ⟨rfl, ?_⟩
  intro all i line
  simp [ruleSet, lintLine, List.flatten]

/-- C5: for every input, the diagnostic sequence is sorted by ascending
line number (every earlier diagnostic's line number is at most every later
one's), and within one line the diagnostics are exactly the concatenation
of the rules' outputs in registration order. -/
theorem c5_output_order :
    (∀ code : String,
      (lint_rtl code).Pairwise (fun a b => a.line_number ≤ b.line_number)) ∧
    ∀ (allLines : List String) (i : Nat) (line : String),
      lintLine allLines i line = (ruleSet.map (fun r => r allLines i line)).flatten := by
  constructor
  · intro code
    exact pairwise_lintAux _ _ 0
  · intro all i line
    simp [ruleSet, lintLine, List.flatten]

/-- C6: `lint_rtl` is a total function (termination is by construction in
this embedding), and the number of diagnostics is at most the number of
lines times the number of rules. -/
theorem c6_length_bound (code : String) :
    (lint_rtl code).length ≤ (splitlines code).length * ruleSet.length := by
  have h6 : ruleSet.length = 6 := rfl
  rw [h6]
  exact length_lintAux _ _ 0

/-- C10: every emitted diagnostic's message starts with the text
`"Line {n}: "` where n is exactly the diagnostic's `line_number` field, and
the numbering is 0-based: a match on the first line of the input is
reported with line number 0. -/
theorem c10_message_line_number :
    (∀ (code : String) (d : Diagnostic), d ∈ lint_rtl code →
      ∃ t, d.message = lineTag d.line_number ++ t) ∧
    lint_rtl "integer [31:0] b;" =
      [⟨0, scalarMsg 0 "integer" "b", scalarSugg "b"⟩] := by
  constructor
  · intro code d hd
    exact (mem_lintAux hd).2
  · decide

/-- Witness for `c10_message_line_number` at a concrete diagnostic. -/
theorem c10_message_line_number_witness :
    ∃ t, (Diagnostic.mk 0 (scalarMsg 0 "integer" "b") (scalarSugg "b")).message =
      lineTag (Diagnostic.mk 0 (scalarMsg 0 "integer" "b") (scalarSugg "b")).line_number ++ t :=
  c10_message_line_number.1 "integer [31:0] b;" _ (by decide)

/-! ## Soundness and completeness of the matcher w.r.t. `LangB` -/

theorem findSome?_mem {α β : Type} {f : α → Option β} {l : List α} {b : β}
    (h : l.findSome? f = some b) : ∃ x ∈ l, f x = some b := by
  induction l with
  | nil => simp [List.findSome?] at h
  | cons x xs ih =>
    rw [List.findSome?_cons] at h
    cases hf : f x with
    | some v =>
      simp only [hf] at h
      exact ⟨x, List.mem_cons_self x xs, by rw [hf]; exact h⟩
    | none =>
      simp only [hf] at h
      obtain ⟨y, hy, hfy⟩ := ih h
      exact ⟨y, List.mem_cons_of_mem x hy, hfy⟩

theorem findSome?_ne_none {α β : Type} {f : α → Option β} {l : List α} {x : α}
    (hx : x ∈ l) (hfx : f x ≠ none) : l.findSome? f ≠ none := by
  induction l with
  | nil => simp at hx
  | cons y ys ih =>
    rw [List.findSome?_cons]
    cases hf : f y with
    | some v => simp
    | none =>
      rcases List.mem_cons.mp hx with rfl | hx'
      · exact absurd hf hfx
      · exact ih hx'

theorem classRun_nil (c : CharClass) (p : Option Char) :
    classRun c p [] = [(p, [])] := rfl

theorem classRun_cons_pos {c : CharClass} {x : Char} (p : Option Char)
    (xs : List Char) (h : c.test x = true) :
    classRun c p (x :: xs) = (p, x :: xs) :: classRun c (some x) xs := by
  rw [show classRun c p (x :: xs) =
    (p, x :: xs) :: (if c.test x = true then classRun c (some x) xs else []) from rfl,
    if_pos h]

theorem classRun_cons_neg {c : CharClass} {x : Char} (p : Option Char)
    (xs : List Char) (h : c.test x = false) :
    classRun c p (x :: xs) = [(p, x :: xs)] := by
  rw [show classRun c p (x :: xs) =
    (p, x :: xs) :: (if c.test x = true then classRun c (some x) xs else []) from rfl,
    if_neg (by simp [h])]

theorem lastO_nil (p : Option Char) : lastO p [] = p := rfl

theorem lastO_cons (p : Option Char) (x : Char) (w : List Char) :
    lastO p (x :: w) = lastO (some x) w := by
  cases w with
  | nil => rfl
  | cons y ys =>
    unfold lastO
    rw [List.getLast?_cons_cons]
    cases h : (y :: ys).getLast? with
    | none => simp at h
    | some z => rfl

theorem lastO_append (p : Option Char) (w1 w2 : List Char) :
    lastO p (w1 ++ w2) = lastO (lastO p w1) w2 := by
  induction w1 generalizing p with
  | nil => rfl
  | cons x xs ih => rw [List.cons_append, lastO_cons, ih, lastO_cons]

theorem headO_append (w rest : List Char) :
    (w ++ rest).head? = headO w rest.head? := by
  cases w <;> rfl

theorem classRun_mem {c : CharClass} :
    ∀ {cs : List Char} {p p' : Option Char} {cs' : List Char},
      (p', cs') ∈ classRun c p cs →
      ∃ w, cs = w ++ cs' ∧ p' = lastO p w ∧ ∀ x ∈ w, c.test x = true := by
  intro cs
  induction cs with
  | nil =>
    intro p p' cs' h
    rw [classRun_nil] at h
    simp at h
    exact ⟨[], by simp [h.2], by simp [h.1, lastO_nil], by simp⟩
  | cons x xs ih =>
    intro p p' cs' h
    cases htest : c.test x with
    | false =>
      rw [classRun_cons_neg p xs htest] at h
      simp at h
      exact ⟨[], by simp [h.2], by simp [h.1, lastO_nil], by simp⟩
    | true =>
      rw [classRun_cons_pos p xs htest] at h
      rcases List.mem_cons.mp h with heq | htail
      · injection heq with h1 h2
        exact ⟨[], by simp [h2.symm], by simp [h1.symm, lastO_nil], by simp⟩
      · obtain ⟨w', hw1, hw2, hw3⟩ := ih htail
        refine ⟨x :: w', by rw [List.cons_append, hw1],
          by rw [lastO_cons]; exact hw2, ?_⟩
        intro y hy
        rcases List.mem_cons.mp hy with rfl | hy'
        · exact htest
        · exact hw3 y hy'

theorem classRun_mem_of_all {c : CharClass} :
    ∀ (w : List Char) (p : Option Char) (rest : List Char),
      (∀ x ∈ w, c.test x = true) →
      (lastO p w, rest) ∈ classRun c p (w ++ rest) := by
  intro w
  induction w with
  | nil =>
    intro p rest _
    rw [List.nil_append, lastO_nil]
    cases rest with
    | nil => rw [classRun_nil]; exact List.mem_cons_self _ _
    | cons y ys =>
      cases htest : c.test y with
      | false => rw [classRun_cons_neg p ys htest]; exact List.mem_cons_self _ _
      | true => rw [classRun_cons_pos p ys htest]; exact List.mem_cons_self _ _
  | cons x xs ih =>
    intro p rest h
    rw [List.cons_append, lastO_cons,
      classRun_cons_pos p (xs ++ rest) (h x (List.mem_cons_self x xs))]
    exact List.mem_cons_of_mem _
      (ih (some x) rest (fun y hy => h y (List.mem_cons_of_mem x hy)))

theorem LangB_star_of_all {c : CharClass} :
    ∀ (w : List Char) (p n : Option Char), (∀ x ∈ w, c.test x = true) →
      LangB (.star c) p w n [] := by
  intro w
  induction w with
  | nil => intro p n _; exact LangB.starNil c p n
  | cons x xs ih =>
    intro p n h
    exact LangB.starCons c x xs p n (h x (List.mem_cons_self x xs))
      (ih (some x) n (fun y hy => h y (List.mem_cons_of_mem x hy)))

theorem LangB_star_all {c : CharClass} :
    ∀ (w : List Char) {p n : Option Char} {g : List (Nat × String)},
      LangB (.star c) p w n g → g = [] ∧ ∀ x ∈ w, c.test x = true := by
  intro w
  induction w with
  | nil =>
    intro p n g h
    cases h
    exact ⟨rfl, by simp⟩
  | cons x xs ih =>
    intro p n g h
    cases h with
    | starCons _ _ _ _ _ htest hsub =>
      obtain ⟨hg, hall⟩ := ih hsub
      refine ⟨hg, ?_⟩
      intro y hy
      rcases List.mem_cons.mp hy with rfl | hy'
      · exact htest
      · exact hall y hy'

theorem mrun_sound {A : Type} :
    ∀ (r : RE) (p : Option Char) (cs : List Char) (gs : List (Nat × String))
      (k : Option Char → List Char → List (Nat × String) → Option A) (a : A),
      mrun r p cs gs k = some a →
      ∃ w cs' g, cs = w ++ cs' ∧ LangB r p w cs'.head? g ∧
        k (lastO p w) cs' (g ++ gs) = some a := by
  intro r
  induction r with
  | eps =>
    intro p cs gs k a h
    exact ⟨[], cs, [], rfl, LangB.eps _ _, h⟩
  | cls c =>
    intro p cs gs k a h
    cases cs with
    | nil => simp [mrun] at h
    | cons x xs =>
      simp only [mrun] at h
      cases htest : c.test x with
      | false => rw [if_neg (by simp [htest])] at h; exact absurd h (by simp)
      | true =>
        rw [if_pos htest] at h
        exact ⟨[x], xs, [], rfl, LangB.cls c x p xs.head? htest, h⟩
  | star c =>
    intro p cs gs k a h
    simp only [mrun] at h
    obtain ⟨s, hs, hks⟩ := findSome?_mem h
    rw [List.mem_reverse] at hs
    obtain ⟨w, hw1, hw2, hw3⟩ := classRun_mem hs
    exact ⟨w, s.2, [], hw1, LangB_star_of_all w p s.2.head? hw3,
      by rw [← hw2]; exact hks⟩
  | cat a b iha ihb =>
    intro p cs gs k a' h
    simp only [mrun] at h
    obtain ⟨w1, cs1, g1, hcs, hL1, hK⟩ := iha p cs gs _ a' h
    obtain ⟨w2, cs2, g2, hcs1, hL2, hk⟩ := ihb (lastO p w1) cs1 (g1 ++ gs) k a' hK
    refine ⟨w1 ++ w2, cs2, g2 ++ g1, by rw [hcs, hcs1, List.append_assoc], ?_, ?_⟩
    · have hh : cs1.head? = headO w2 cs2.head? := by rw [hcs1, headO_append]
      rw [hh] at hL1
      exact LangB.cat a b p cs2.head? w1 w2 g1 g2 hL1 hL2
    · rw [lastO_append, List.append_assoc]
      exact hk
  | alt a b iha ihb =>
    intro p cs gs k a' h
    simp only [mrun] at h
    cases hm : mrun a p cs gs k with
    | some r =>
      simp only [hm, Option.some.injEq] at h
      obtain ⟨w, cs', g, h1, h2, h3⟩ := iha p cs gs k r hm
      exact ⟨w, cs', g, h1, LangB.altL a b p w cs'.head? g h2, by rw [h3, h]⟩
    | none =>
      simp only [hm] at h
      obtain ⟨w, cs', g, h1, h2, h3⟩ := ihb p cs gs k a' h
      exact ⟨w, cs', g, h1, LangB.altR a b p w cs'.head? g h2, h3⟩
  | opt a iha =>
    intro p cs gs k a' h
    simp only [mrun] at h
    cases hm : mrun a p cs gs k with
    | some r =>
      simp only [hm, Option.some.injEq] at h
      obtain ⟨w, cs', g, h1, h2, h3⟩ := iha p cs gs k r hm
      exact ⟨w, cs', g, h1, LangB.optSome a p w cs'.head? g h2, by rw [h3, h]⟩
    | none =>
      simp only [hm] at h
      exact ⟨[], cs, [], rfl, LangB.optNone a p cs.head?, h⟩
  | wb =>
    intro p cs gs k a h
    simp only [mrun] at h
    cases hb : wordO p != wordO cs.head? with
    | false => rw [if_neg (by simp [hb])] at h; exact absurd h (by simp)
    | true =>
      rw [if_pos hb] at h
      exact ⟨[], cs, [], rfl, LangB.wb p cs.head? (bne_iff_ne.mp hb), h⟩
  | group m a iha =>
    intro p cs gs k a' h
    simp only [mrun] at h
    obtain ⟨w, cs', g, hcs, hL, hK⟩ := iha p cs gs _ a' h
    have htake : cs.take (cs.length - cs'.length) = w := by
      rw [hcs, List.length_append, Nat.add_sub_cancel, List.take_left]
    rw [htake] at hK
    exact ⟨w, cs', (m, String.mk w) :: g, hcs,
      LangB.group m a p w cs'.head? g hL, hK⟩

theorem mrun_compl {A : Type} :
    ∀ {r : RE} {p : Option Char} {w : List Char} {n : Option Char}
      {g : List (Nat × String)}, LangB r p w n g →
      ∀ (rest : List Char), n = rest.head? →
      ∀ (gs : List (Nat × String))
        (k : Option Char → List Char → List (Nat × String) → Option A),
        (∀ gs', k (lastO p w) rest gs' ≠ none) →
        mrun r p (w ++ rest) gs k ≠ none := by
  intro r p w n g h
  induction h with
  | eps p n =>
    intro rest hn gs k hk
    exact hk gs
  | cls c x p n htest =>
    intro rest hn gs k hk
    rw [List.cons_append]
    show (if c.test x = true then k (some x) (([] : List Char) ++ rest) gs
      else none) ≠ none
    rw [if_pos htest, List.nil_append]
    exact hk gs
  | starNil c p n =>
    intro rest hn gs k hk
    rw [List.nil_append]
    show (classRun c p rest).reverse.findSome? (fun s => k s.1 s.2 gs) ≠ none
    have hmem : ((p, rest) : Option Char × List Char) ∈ classRun c p rest := by
      have hmm := classRun_mem_of_all (c := c) [] p rest (by simp)
      simpa [lastO_nil] using hmm
    exact findSome?_ne_none (List.mem_reverse.mpr hmem) (hk gs)
  | starCons c x xs p n htest hsub =>
    intro rest hn gs k hk
    show (classRun c p ((x :: xs) ++ rest)).reverse.findSome?
      (fun s => k s.1 s.2 gs) ≠ none
    have hall : ∀ y ∈ x :: xs, c.test y = true := by
      intro y hy
      rcases List.mem_cons.mp hy with rfl | hy'
      · exact htest
      · exact (LangB_star_all xs hsub).2 y hy'
    exact findSome?_ne_none
      (List.mem_reverse.mpr (classRun_mem_of_all (x :: xs) p rest hall)) (hk gs)
  | cat a b p n w1 w2 g1 g2 h1 h2 ih1 ih2 =>
    intro rest hn gs k hk
    rw [List.append_assoc]
    show mrun a p (w1 ++ (w2 ++ rest)) gs _ ≠ none
    refine ih1 (w2 ++ rest) ?_ gs _ ?_
    · rw [headO_append, hn]
    · intro gs'
      refine ih2 rest hn gs' k ?_
      intro gs''
      rw [← lastO_append]
      exact hk gs''
  | altL a b p w n g hsub ih =>
    intro rest hn gs k hk
    show (match mrun a p (w ++ rest) gs k with
      | some r => some r
      | none => mrun b p (w ++ rest) gs k) ≠ none
    cases hm : mrun a p (w ++ rest) gs k with
    | some r => simp
    | none => exact absurd hm (ih rest hn gs k hk)
  | altR a b p w n g hsub ih =>
    intro rest hn gs k hk
    show (match mrun a p (w ++ rest) gs k with
      | some r => some r
      | none => mrun b p (w ++ rest) gs k) ≠ none
    cases hm : mrun a p (w ++ rest) gs k with
    | some r => simp
    | none => simp only [hm]; exact ih rest hn gs k hk
  | optSome a p w n g hsub ih =>
    intro rest hn gs k hk
    show (match mrun a p (w ++ rest) gs k with
      | some r => some r
      | none => k p (w ++ rest) gs) ≠ none
    cases hm : mrun a p (w ++ rest) gs k with
    | some r => simp
    | none => exact absurd hm (ih rest hn gs k hk)
  | optNone a p n =>
    intro rest hn gs k hk
    rw [List.nil_append]
    show (match mrun a p rest gs k with
      | some r => some r
      | none => k p rest gs) ≠ none
    cases hm : mrun a p rest gs k with
    | some r => simp
    | none => simp only [hm]; exact hk gs
  | wb p n hne =>
    intro rest hn gs k hk
    rw [hn] at hne
    rw [List.nil_append]
    show (if (wordO p != wordO rest.head?) = true then k p rest gs else none) ≠ none
    rw [if_pos (bne_iff_ne.mpr hne)]
    exact hk gs
  | group m a p w n g hsub ih =>
    intro rest hn gs k hk
    show mrun a p (w ++ rest) gs _ ≠ none
    refine ih rest hn gs _ ?_
    intro gs'
    exact hk _

theorem searchFrom_sound :
    ∀ (cs : List Char) (r : RE) (p : Option Char) (gs : List (Nat × String)),
      searchFrom r p cs = some gs →
      ∃ pre w post, cs = pre ++ (w ++ post) ∧
        LangB r (lastO p pre) w post.head? gs := by
  intro cs
  induction cs with
  | nil =>
    intro r p gs h
    simp only [searchFrom] at h
    cases hm : mrun r p [] [] (fun _ _ gs => some gs) with
    | some gs0 =>
      simp only [hm, Option.some.injEq] at h
      subst h
      obtain ⟨w, cs', g, hw, hL, hk⟩ := mrun_sound r p [] [] _ gs0 hm
      simp only [Option.some.injEq] at hk
      refine ⟨[], w, cs', by simpa using hw, ?_⟩
      rw [lastO_nil]
      rw [← hk, List.append_nil]
      exact hL
    | none =>
      simp only [hm] at h
      exact absurd h (by simp)
  | cons x xs ih =>
    intro r p gs h
    simp only [searchFrom] at h
    cases hm : mrun r p (x :: xs) [] (fun _ _ gs => some gs) with
    | some gs0 =>
      simp only [hm, Option.some.injEq] at h
      subst h
      obtain ⟨w, cs', g, hw, hL, hk⟩ := mrun_sound r p (x :: xs) [] _ gs0 hm
      simp only [Option.some.injEq] at hk
      refine ⟨[], w, cs', by simpa using hw, ?_⟩
      rw [lastO_nil]
      rw [← hk, List.append_nil]
      exact hL
    | none =>
      simp only [hm] at h
      obtain ⟨pre', w, post, hsplit, hL⟩ := ih r (some x) gs h
      refine ⟨x :: pre', w, post, by rw [hsplit]; rfl, ?_⟩
      rwa [lastO_cons]

theorem searchFrom_eq_some {r : RE} {p : Option Char} {cs : List Char}
    {gs0 : List (Nat × String)}
    (hm : mrun r p cs [] (fun _ _ gs => some gs) = some gs0) :
    searchFrom r p cs = some gs0 := by
  cases cs with
  | nil => simp only [searchFrom, hm]
  | cons x xs => simp only [searchFrom, hm]

theorem searchFrom_compl :
    ∀ (pre : List Char) (r : RE) (p : Option Char) (w post : List Char)
      (g : List (Nat × String)),
      LangB r (lastO p pre) w post.head? g →
      searchFrom r p (pre ++ (w ++ post)) ≠ none := by
  intro pre
  induction pre with
  | nil =>
    intro r p w post g hL
    rw [lastO_nil] at hL
    have hm := mrun_compl hL post rfl []
      (fun _ _ gs => some gs) (fun gs' => by simp)
    rw [List.nil_append]
    cases hmm : mrun r p (w ++ post) [] (fun _ _ gs => some gs) with
    | some gs0 => rw [searchFrom_eq_some hmm]; simp
    | none => exact absurd hmm hm
  | cons x xs ih =>
    intro r p w post g hL
    rw [lastO_cons] at hL
    rw [List.cons_append]
    simp only [searchFrom]
    cases hmm : mrun r p (x :: (xs ++ (w ++ post))) [] (fun _ _ gs => some gs) with
    | some gs0 => simp
    | none => simp only [hmm]; exact ih r (some x) w post g hL

theorem lastO_none_getLast? (pre : List Char) : lastO none pre = pre.getLast? := by
  unfold lastO
  cases pre.getLast? <;> rfl

theorem research_sound {r : RE} {line : String} {gs : List (Nat × String)}
    (h : research r line = some gs) :
    ∃ pre w post, line.data = pre ++ (w ++ post) ∧
      LangB r pre.getLast? w post.head? gs := by
  obtain ⟨pre, w, post, hsplit, hL⟩ := searchFrom_sound line.data r none gs h
  rw [lastO_none_getLast?] at hL
  exact ⟨pre, w, post, hsplit, hL⟩

theorem research_compl {r : RE} {line : String} {pre w post : List Char}
    {g : List (Nat × String)} (hsplit : line.data = pre ++ (w ++ post))
    (hL : LangB r pre.getLast? w post.head? g) :
    research r line ≠ none := by
  unfold research
  rw [hsplit]
  exact searchFrom_compl pre r none w post g (by rwa [lastO_none_getLast?])

/-! ## Whitespace-only inputs produce no diagnostics (C7 layer) -/

theorem pySpace_not_word {x : Char} (h : isPySpace x = true) :
    CharClass.test .word x = false := by
  simp only [isPySpace, isLineBreak, CharClass.test, Bool.or_eq_true,
    beq_iff_eq, or_assoc] at h
  rcases h with h|h|h|h|h|h|h|h|h|h|h|h|h|h|h|h <;> subst h <;> decide

theorem pySpace_not_digit {x : Char} (h : isPySpace x = true) :
    CharClass.test .digit x = false := by
  simp only [isPySpace, isLineBreak, CharClass.test, Bool.or_eq_true,
    beq_iff_eq, or_assoc] at h
  rcases h with h|h|h|h|h|h|h|h|h|h|h|h|h|h|h|h <;> subst h <;> decide

theorem word_not_pySpace {x : Char} (h : CharClass.test .word x = true) :
    isPySpace x = false := by
  cases hx : isPySpace x with
  | false => rfl
  | true => rw [pySpace_not_word hx] at h; simp at h

theorem digit_not_pySpace {x : Char} (h : CharClass.test .digit x = true) :
    isPySpace x = false := by
  cases hx : isPySpace x with
  | false => rfl
  | true => rw [pySpace_not_digit hx] at h; simp at h

theorem hasNS_sound :
    ∀ {r : RE} {p : Option Char} {w : List Char} {n : Option Char}
      {g : List (Nat × String)}, LangB r p w n g → hasNS r = true →
      ∃ x ∈ w, isPySpace x = false := by
  intro r p w n g h
  induction h with
  | eps p n => intro hr; simp [hasNS] at hr
  | cls c x p n htest =>
    intro hr
    refine ⟨x, List.mem_cons_self x [], ?_⟩
    cases c with
    | any => simp [hasNS, clsNS] at hr
    | space => simp [hasNS, clsNS] at hr
    | word => exact word_not_pySpace htest
    | digit => exact digit_not_pySpace htest
    | lit d =>
      have hx : x = d := by simpa [CharClass.test] using htest
      subst hx
      simpa [hasNS, clsNS] using hr
  | starNil c p n => intro hr; simp [hasNS] at hr
  | starCons c x xs p n htest hsub ih => intro hr; simp [hasNS] at hr
  | cat a b p n w1 w2 g1 g2 h1 h2 ih1 ih2 =>
    intro hr
    simp only [hasNS, Bool.or_eq_true] at hr
    rcases hr with hr | hr
    · obtain ⟨x, hx, hxs⟩ := ih1 hr
      exact ⟨x, List.mem_append_left _ hx, hxs⟩
    · obtain ⟨x, hx, hxs⟩ := ih2 hr
      exact ⟨x, List.mem_append_right _ hx, hxs⟩
  | altL a b p w n g hsub ih =>
    intro hr
    simp only [hasNS, Bool.and_eq_true] at hr
    exact ih hr.1
  | altR a b p w n g hsub ih =>
    intro hr
    simp only [hasNS, Bool.and_eq_true] at hr
    exact ih hr.2
  | optSome a p w n g hsub ih => intro hr; simp [hasNS] at hr
  | optNone a p n => intro hr; simp [hasNS] at hr
  | wb p n hne => intro hr; simp [hasNS] at hr
  | group m a p w n g hsub ih =>
    intro hr
    simp only [hasNS] at hr
    exact ih hr

theorem research_none_of_space {r : RE} (hr : hasNS r = true) (line : String)
    (hsp : ∀ c ∈ line.data, isPySpace c = true) : research r line = none := by
  cases h : research r line with
  | none => rfl
  | some gs =>
    obtain ⟨pre, w, post, hsplit, hL⟩ := research_sound h
    obtain ⟨x, hxw, hxs⟩ := hasNS_sound hL hr
    have hx : x ∈ line.data := by
      rw [hsplit]
      exact List.mem_append_right _ (List.mem_append_left _ hxw)
    rw [hsp x hx] at hxs
    simp at hxs

theorem splitlinesAux_nil (b : Bool) (acc : List Char) :
    splitlinesAux [] b acc =
      if acc.isEmpty then [] else [String.mk acc.reverse] := rfl

theorem splitlinesAux_cons (c : Char) (cs : List Char) (b : Bool)
    (acc : List Char) :
    splitlinesAux (c :: cs) b acc =
      if c == '\n' && b then splitlinesAux cs false acc
      else if isLineBreak c then
        String.mk acc.reverse :: splitlinesAux cs (c == '\x0d') []
      else splitlinesAux cs false (c :: acc) := rfl

theorem splitlinesAux_chars :
    ∀ (l : List Char) (b : Bool) (acc : List Char), ∀ s ∈ splitlinesAux l b acc,
      ∀ c ∈ s.data, c ∈ l ∨ c ∈ acc := by
  intro l
  induction l with
  | nil =>
    intro b acc s hs c hc
    rw [splitlinesAux_nil] at hs
    by_cases hacc : acc.isEmpty
    · rw [if_pos hacc] at hs
      simp at hs
    · rw [if_neg hacc] at hs
      rcases List.mem_cons.mp hs with rfl | hs'
      · exact Or.inr (List.mem_reverse.mp hc)
      · simp at hs'
  | cons c0 cs ih =>
    intro b acc s hs c hc
    rw [splitlinesAux_cons] at hs
    by_cases h1 : (c0 == '\n' && b) = true
    · rw [if_pos h1] at hs
      rcases ih false acc s hs c hc with hcl | hcl
      · exact Or.inl (List.mem_cons_of_mem _ hcl)
      · exact Or.inr hcl
    · rw [if_neg h1] at hs
      by_cases h2 : isLineBreak c0 = true
      · rw [if_pos h2] at hs
        rcases List.mem_cons.mp hs with rfl | hs'
        · exact Or.inr (List.mem_reverse.mp hc)
        · rcases ih (c0 == '\x0d') [] s hs' c hc with hcl | hcl
          · exact Or.inl (List.mem_cons_of_mem _ hcl)
          · simp at hcl
      · rw [if_neg h2] at hs
        rcases ih false (c0 :: acc) s hs c hc with hcl | hcl
        · exact Or.inl (List.mem_cons_of_mem _ hcl)
        · rcases List.mem_cons.mp hcl with rfl | hcl'
          · exact Or.inl (List.mem_cons_self _ _)
          · exact Or.inr hcl'

theorem lintLine_of_space (all : List String) (i : Nat) (line : String)
    (h : ∀ c ∈ line.data, isPySpace c = true) : lintLine all i line = [] := by
  have h1 := research_none_of_space (r := scalarPat) (by decide) line h
  have h2 := research_none_of_space (r := paramPat) (by decide) line h
  have h3 := research_none_of_space (r := modulePat) (by decide) line h
  have h4 := research_none_of_space (r := assignPat) (by decide) line h
  have h5 := research_none_of_space (r := beginPat) (by decide) line h
  have h6 := research_none_of_space (r := portRangePat) (by decide) line h
  simp [lintLine, ruleScalar, ruleParamIR, rulePortDefault, ruleAssign,
    ruleLabel, rulePortRange, h1, h2, h3, h4, h5, h6]

theorem lintAux_of_space (all : List String) :
    ∀ (rest : List String) (i : Nat),
      (∀ s ∈ rest, ∀ c ∈ s.data, isPySpace c = true) →
      lintAux all i rest = [] := by
  intro rest
  induction rest with
  | nil => intro i _; rfl
  | cons l rs ih =>
    intro i h
    simp only [lintAux]
    rw [lintLine_of_space all i l (h l (List.mem_cons_self l rs)),
      ih (i + 1) (fun s hs => h s (List.mem_cons_of_mem l hs))]
    rfl


/-- C7: in this embedding `lint_rtl` is a total function — every input
yields a result and no rule has a failure path — and on an empty or
whitespace-only input (Python `str` whitespace) it returns the empty
diagnostic sequence. -/
theorem c7_no_failure_whitespace :
    lint_rtl "" = [] ∧
    ∀ code : String, (∀ c ∈ code.data, isPySpace c = true) →
      lint_rtl code = [] := by
  refine ⟨by decide, ?_⟩
  intro code h
  show lintAux (splitlines code) 0 (splitlines code) = []
  apply lintAux_of_space
  intro s hs c hc
  rcases splitlinesAux_chars code.data false [] s hs c hc with hcl | hcl
  · exact h c hcl
  · simp at hcl

/-- Witness for `c7_no_failure_whitespace` at a concrete whitespace-only
input. -/
theorem c7_no_failure_whitespace_witness : lint_rtl " \t " = [] :=
  c7_no_failure_whitespace.2 " \t " (by decide)


/-! ## Inversion and construction lemmas for the concrete patterns -/

theorem bool_ne_true {b : Bool} (h : b ≠ true) : b = false := by
  cases b with
  | false => rfl
  | true => exact absurd rfl h

theorem LangB_eps_inv {p : Option Char} {w : List Char} {n : Option Char}
    {g : List (Nat × String)} (h : LangB .eps p w n g) : w = [] ∧ g = [] := by
  cases h
  exact ⟨rfl, rfl⟩

theorem LangB_cls_inv {c : CharClass} {p : Option Char} {w : List Char}
    {n : Option Char} {g : List (Nat × String)} (h : LangB (.cls c) p w n g) :
    ∃ x, w = [x] ∧ g = [] ∧ c.test x = true := by
  cases h with
  | cls _ x _ _ htest => exact ⟨x, rfl, rfl, htest⟩

theorem LangB_wb_inv {p : Option Char} {w : List Char} {n : Option Char}
    {g : List (Nat × String)} (h : LangB .wb p w n g) :
    w = [] ∧ g = [] ∧ wordO p ≠ wordO n := by
  cases h with
  | wb _ _ hb => exact ⟨rfl, rfl, hb⟩

theorem LangB_cat_inv {a b : RE} {p : Option Char} {w : List Char}
    {n : Option Char} {g : List (Nat × String)} (h : LangB (.cat a b) p w n g) :
    ∃ w1 w2 g1 g2, w = w1 ++ w2 ∧ g = g2 ++ g1 ∧
      LangB a p w1 (headO w2 n) g1 ∧ LangB b (lastO p w1) w2 n g2 := by
  cases h with
  | cat _ _ _ _ w1 w2 g1 g2 h1 h2 => exact ⟨w1, w2, g1, g2, rfl, rfl, h1, h2⟩

theorem LangB_alt_inv {a b : RE} {p : Option Char} {w : List Char}
    {n : Option Char} {g : List (Nat × String)} (h : LangB (.alt a b) p w n g) :
    LangB a p w n g ∨ LangB b p w n g := by
  cases h with
  | altL _ _ _ _ _ _ hs => exact Or.inl hs
  | altR _ _ _ _ _ _ hs => exact Or.inr hs

theorem LangB_opt_inv {a : RE} {p : Option Char} {w : List Char}
    {n : Option Char} {g : List (Nat × String)} (h : LangB (.opt a) p w n g) :
    LangB a p w n g ∨ (w = [] ∧ g = []) := by
  cases h with
  | optSome _ _ _ _ _ hs => exact Or.inl hs
  | optNone => exact Or.inr ⟨rfl, rfl⟩

theorem LangB_group_inv {m : Nat} {a : RE} {p : Option Char} {w : List Char}
    {n : Option Char} {g : List (Nat × String)}
    (h : LangB (.group m a) p w n g) :
    ∃ g', g = (m, String.mk w) :: g' ∧ LangB a p w n g' := by
  cases h with
  | group _ _ _ _ _ g' hs => exact ⟨g', rfl, hs⟩

theorem LangB_plusC_inv {c : CharClass} {p : Option Char} {w : List Char}
    {n : Option Char} {g : List (Nat × String)} (h : LangB (plusC c) p w n g) :
    w ≠ [] ∧ g = [] ∧ ∀ x ∈ w, c.test x = true := by
  obtain ⟨w1, w2, g1, g2, hw, hg, h1, h2⟩ := LangB_cat_inv h
  obtain ⟨x, hx, hg1, htest⟩ := LangB_cls_inv h1
  obtain ⟨hg2, hall⟩ := LangB_star_all w2 h2
  subst hw hx hg1 hg2
  refine ⟨by simp, by simp [hg], ?_⟩
  intro y hy
  rcases List.mem_cons.mp hy with rfl | hy'
  · exact htest
  · exact hall y hy'

theorem rstrL_inv :
    ∀ (l : List Char) {p : Option Char} {w : List Char} {n : Option Char}
      {g : List (Nat × String)},
      LangB (rcat (l.map (fun c => RE.cls (.lit c)))) p w n g →
      w = l ∧ g = [] := by
  intro l
  induction l with
  | nil =>
    intro p w n g h
    exact LangB_eps_inv h
  | cons c cs ih =>
    intro p w n g h
    obtain ⟨w1, w2, g1, g2, hw, hg, h1, h2⟩ := LangB_cat_inv h
    obtain ⟨x, hx, hg1, htest⟩ := LangB_cls_inv h1
    obtain ⟨hw2, hg2⟩ := ih h2
    have hxc : x = c := by simpa [CharClass.test] using htest
    subst hw hx hg1 hg2 hw2 hxc
    exact ⟨rfl, by simp [hg]⟩

theorem rstr_inv {s : String} {p : Option Char} {w : List Char}
    {n : Option Char} {g : List (Nat × String)} (h : LangB (rstr s) p w n g) :
    w = s.data ∧ g = [] :=
  rstrL_inv s.data h

theorem rstrL_build :
    ∀ (l : List Char) (p n : Option Char),
      LangB (rcat (l.map (fun c => RE.cls (.lit c)))) p l n [] := by
  intro l
  induction l with
  | nil => intro p n; exact LangB.eps p n
  | cons c cs ih =>
    intro p n
    have h := LangB.cat (.cls (.lit c))
      (rcat (cs.map (fun x => RE.cls (.lit x)))) p n [c] cs [] []
      (LangB.cls (.lit c) c p (headO cs n) (by simp [CharClass.test]))
      (ih (some c) n)
    simpa using h

theorem rstr_build (s : String) (p n : Option Char) :
    LangB (rstr s) p s.data n [] :=
  rstrL_build s.data p n

theorem LangB_plusC_of_all {c : CharClass} (x : Char) (xs : List Char)
    (p n : Option Char) (h : ∀ y ∈ x :: xs, c.test y = true) :
    LangB (plusC c) p (x :: xs) n [] := by
  have hc := LangB.cat (.cls c) (.star c) p n [x] xs [] []
    (LangB.cls c x p (headO xs n) (h x (List.mem_cons_self x xs)))
    (LangB_star_of_all xs (lastO p [x]) n (fun y hy => h y (List.mem_cons_of_mem x hy)))
  simpa using hc


theorem paramPat_inv {p : Option Char} {w : List Char} {n : Option Char}
    {g : List (Nat × String)} (h : LangB paramPat p w n g) :
    ∃ w1 w2,
      w = "parameter".data ++ (w1 ++ ("integer".data ++ (w2 ++ "real".data))) ∧
      w1 ≠ [] ∧ w2 ≠ [] ∧
      (∀ c ∈ w1, CharClass.test .space c = true) ∧
      (∀ c ∈ w2, CharClass.test .space c = true) ∧
      wordO p = false ∧ wordO n = false := by
  obtain ⟨wA, wR1, gA, gR1, hw1, hg1, hA, hR1⟩ := LangB_cat_inv h
  obtain ⟨hwA, hgA, hbA⟩ := LangB_wb_inv hA
  obtain ⟨wP, wR2, gP, gR2, hw2, hg2, hP, hR2⟩ := LangB_cat_inv hR1
  obtain ⟨hwP, hgP⟩ := rstr_inv hP
  obtain ⟨wS1, wR3, gS1, gR3, hw3, hg3, hS1, hR3⟩ := LangB_cat_inv hR2
  obtain ⟨hne1, hgS1, hall1⟩ := LangB_plusC_inv hS1
  obtain ⟨wI, wR4, gI, gR4, hw4, hg4, hI, hR4⟩ := LangB_cat_inv hR3
  obtain ⟨hwI, hgI⟩ := rstr_inv hI
  obtain ⟨wS2, wR5, gS2, gR5, hw5, hg5, hS2, hR5⟩ := LangB_cat_inv hR4
  obtain ⟨hne2, hgS2, hall2⟩ := LangB_plusC_inv hS2
  obtain ⟨wRl, wR6, gRl, gR6, hw6, hg6, hRl, hR6⟩ := LangB_cat_inv hR5
  obtain ⟨hwRl, hgRl⟩ := rstr_inv hRl
  obtain ⟨wB, wR7, gB, gR7, hw7, hg7, hB, hR7⟩ := LangB_cat_inv hR6
  obtain ⟨hwB, hgB, hbB⟩ := LangB_wb_inv hB
  obtain ⟨hwE, hgE⟩ := LangB_eps_inv hR7
  subst hwA hwP hwI hwRl hwB hwE hw1 hw2 hw3 hw4 hw5 hw6 hw7
  refine ⟨wS1, wS2, by simp, hne1, hne2, hall1, hall2, ?_, ?_⟩
  · refine bool_ne_true ?_
    intro hp
    apply hbA
    rw [hp]
    rfl
  · refine bool_ne_true ?_
    intro hnn
    apply hbB
    rw [show headO ([] : List Char) n = n from rfl, hnn]
    rfl

theorem paramPat_build (p n : Option Char) (w1 w2 : List Char)
    (h1 : w1 ≠ []) (h2 : w2 ≠ [])
    (hs1 : ∀ c ∈ w1, CharClass.test .space c = true)
    (hs2 : ∀ c ∈ w2, CharClass.test .space c = true)
    (hp : wordO p = false) (hn : wordO n = false) :
    ∃ g, LangB paramPat p
      ("parameter".data ++ (w1 ++ ("integer".data ++ (w2 ++ "real".data))))
      n g := by
  obtain ⟨x1, xs1, rfl⟩ : ∃ y ys, w1 = y :: ys := by
    cases w1 with
    | nil => exact absurd rfl h1
    | cons y ys => exact ⟨y, ys, rfl⟩
  obtain ⟨x2, xs2, rfl⟩ : ∃ y ys, w2 = y :: ys := by
    cases w2 with
    | nil => exact absurd rfl h2
    | cons y ys => exact ⟨y, ys, rfl⟩
  have hwbE : LangB RE.wb (some 'l') [] (headO ([] : List Char) n) [] := by
    refine LangB.wb _ _ ?_
    rw [show headO ([] : List Char) n = n from rfl, hn]
    decide
  have e7 : LangB (RE.cat RE.wb RE.eps) (some 'l') [] n [] :=
    LangB.cat _ _ _ _ [] [] [] [] hwbE (LangB.eps _ _)
  have e6 : ∀ q, LangB (RE.cat (rstr "real") (RE.cat RE.wb RE.eps)) q
      "real".data n [] := fun q =>
    LangB.cat _ _ _ _ "real".data [] [] [] (rstr_build "real" q n) e7
  have e5 : ∀ q, LangB (RE.cat (plusC .space)
      (RE.cat (rstr "real") (RE.cat RE.wb RE.eps))) q
      ((x2 :: xs2) ++ "real".data) n [] := fun q =>
    LangB.cat _ _ _ _ (x2 :: xs2) "real".data [] []
      (LangB_plusC_of_all x2 xs2 q (headO "real".data n) hs2)
      (e6 (lastO q (x2 :: xs2)))
  have e4 : ∀ q, LangB (RE.cat (rstr "integer") (RE.cat (plusC .space)
      (RE.cat (rstr "real") (RE.cat RE.wb RE.eps)))) q
      ("integer".data ++ ((x2 :: xs2) ++ "real".data)) n [] := fun q =>
    LangB.cat _ _ _ _ "integer".data ((x2 :: xs2) ++ "real".data) [] []
      (rstr_build "integer" q _) (e5 (lastO q "integer".data))
  have e3 : ∀ q, LangB (RE.cat (plusC .space) (RE.cat (rstr "integer")
      (RE.cat (plusC .space) (RE.cat (rstr "real")
      (RE.cat RE.wb RE.eps))))) q
      ((x1 :: xs1) ++ ("integer".data ++ ((x2 :: xs2) ++ "real".data))) n [] :=
    fun q =>
    LangB.cat _ _ _ _ (x1 :: xs1) ("integer".data ++ ((x2 :: xs2) ++ "real".data))
      [] []
      (LangB_plusC_of_all x1 xs1 q _ hs1)
      (e4 (lastO q (x1 :: xs1)))
  have e2 : LangB (RE.cat (rstr "parameter") (RE.cat (plusC .space)
      (RE.cat (rstr "integer") (RE.cat (plusC .space) (RE.cat (rstr "real")
      (RE.cat RE.wb RE.eps)))))) p
      ("parameter".data ++ ((x1 :: xs1) ++ ("integer".data ++
        ((x2 :: xs2) ++ "real".data)))) n [] :=
    LangB.cat _ _ _ _ "parameter".data _ [] []
      (rstr_build "parameter" p _) (e3 (lastO p "parameter".data))
  refine ⟨[], ?_⟩
  have hwbF : LangB RE.wb p []
      (headO ("parameter".data ++ ((x1 :: xs1) ++ ("integer".data ++
        ((x2 :: xs2) ++ "real".data)))) n) [] := by
    refine LangB.wb _ _ ?_
    rw [hp, show headO ("parameter".data ++ ((x1 :: xs1) ++ ("integer".data ++
      ((x2 :: xs2) ++ "real".data)))) n = some 'p' from rfl]
    decide
  have e1 := LangB.cat RE.wb (RE.cat (rstr "parameter") (RE.cat (plusC .space)
      (RE.cat (rstr "integer") (RE.cat (plusC .space) (RE.cat (rstr "real")
      (RE.cat RE.wb RE.eps)))))) p n []
      ("parameter".data ++ ((x1 :: xs1) ++ ("integer".data ++
        ((x2 :: xs2) ++ "real".data)))) [] []
      hwbF e2
  simpa using e1

/-- C9: the illegal integer-real rule fires on a line iff the line contains
`parameter`, then whitespace, then `integer`, then whitespace, then `real`,
with word boundaries on both sides; in particular
`"parameter integer x = 0;"` (no `real`) yields zero diagnostics from this
rule, while `"parameter integer real x;"` yields exactly one. -/
theorem c9_param_integer_real :
    (∀ (i : Nat) (line : String),
      ruleParamIR i line ≠ [] ↔
      ∃ pre w1 w2 post,
        line.data = pre ++ ("parameter".data ++ (w1 ++ ("integer".data ++
          (w2 ++ ("real".data ++ post))))) ∧
        w1 ≠ [] ∧ w2 ≠ [] ∧
        (∀ c ∈ w1, CharClass.test .space c = true) ∧
        (∀ c ∈ w2, CharClass.test .space c = true) ∧
        wordO pre.getLast? = false ∧ wordO post.head? = false) ∧
    ruleParamIR 0 "parameter integer x = 0;" = [] ∧
    ruleParamIR 0 "parameter integer real x;" = [⟨0, paramMsg 0, paramSugg⟩] := by
  refine ⟨?_, by decide, by decide⟩
  intro i line
  constructor
  · intro hne
    unfold ruleParamIR at hne
    cases hr : research paramPat line with
    | none => rw [hr] at hne; simp at hne
    | some gs =>
      obtain ⟨pre, w, post, hsplit, hL⟩ := research_sound hr
      obtain ⟨w1, w2, hw, hn1, hn2, hall1, hall2, hp, hn⟩ := paramPat_inv hL
      refine ⟨pre, w1, w2, post, ?_, hn1, hn2, hall1, hall2, hp, hn⟩
      rw [hsplit, hw]
      simp [List.append_assoc]
  · rintro ⟨pre, w1, w2, post, hsplit, hn1, hn2, hall1, hall2, hp, hn⟩
    obtain ⟨g, hL⟩ := paramPat_build pre.getLast? post.head? w1 w2 hn1 hn2
      hall1 hall2 hp hn
    have hres := @research_compl paramPat line pre _ post _
      (by rw [hsplit]; simp [List.append_assoc]) hL
    unfold ruleParamIR
    cases hr : research paramPat line with
    | none => exact absurd hr hres
    | some gs => simp


theorem scalarPat_inv {p : Option Char} {w : List Char} {n : Option Char}
    {g : List (Nat × String)} (h : LangB scalarPat p w n g)
    (htr : groupTruthy g 2 = true) :
    ∃ t sp1 m1 m2 rest,
      w = t ++ (sp1 ++ ('[' :: (m1 ++ (':' :: (m2 ++ (']' :: rest)))))) ∧
      (t = "integer".data ∨ t = "time".data ∨ t = "real".data) ∧
      (∀ c ∈ sp1, CharClass.test .space c = true) ∧ m1 ≠ [] := by
  obtain ⟨wA, wR1, gA, gR1, hw1, hg1, hA, hR1⟩ := LangB_cat_inv h
  obtain ⟨hwA, hgA, hbA⟩ := LangB_wb_inv hA
  obtain ⟨wT, wR2, gT, gR2, hw2, hg2, hT, hR2⟩ := LangB_cat_inv hR1
  obtain ⟨gT', hgT, hTin⟩ := LangB_group_inv hT
  have halt : (wT = "integer".data ∨ wT = "time".data ∨ wT = "real".data) ∧
      gT' = [] := by
    rcases LangB_alt_inv hTin with hI | hTR
    · obtain ⟨ha, hb⟩ := rstr_inv hI
      exact ⟨Or.inl ha, hb⟩
    · rcases LangB_alt_inv hTR with hTt | hRr
      · obtain ⟨ha, hb⟩ := rstr_inv hTt
        exact ⟨Or.inr (Or.inl ha), hb⟩
      · obtain ⟨ha, hb⟩ := rstr_inv hRr
        exact ⟨Or.inr (Or.inr ha), hb⟩
  obtain ⟨hts, hgT'⟩ := halt
  obtain ⟨wB2, wR3, gB2, gR3, hw3, hg3, hB2, hR3⟩ := LangB_cat_inv hR2
  obtain ⟨hwB2, hgB2, hbB2⟩ := LangB_wb_inv hB2
  obtain ⟨wO, wR4, gO, gR4, hw4, hg4, hO, hR4⟩ := LangB_cat_inv hR3
  obtain ⟨wS2, wR5, gS2, gR5, hw5, hg5, hS2, hR5⟩ := LangB_cat_inv hR4
  obtain ⟨hgS2, hallS2⟩ := LangB_star_all wS2 hS2
  obtain ⟨wV, wR6, gV, gR6, hw6, hg6, hV, hR6⟩ := LangB_cat_inv hR5
  obtain ⟨gV', hgV, hVin⟩ := LangB_group_inv hV
  obtain ⟨hVne, hgV', hVall⟩ := LangB_plusC_inv hVin
  obtain ⟨wS3, wR7, gS3, gR7, hw7, hg7, hS3, hR7⟩ := LangB_cat_inv hR6
  obtain ⟨hgS3, hallS3⟩ := LangB_star_all wS3 hS3
  obtain ⟨wSm, wR8, gSm, gR8, hw8, hg8, hSm, hR8⟩ := LangB_cat_inv hR7
  obtain ⟨xsc, hxsc, hgSm, htsc⟩ := LangB_cls_inv hSm
  obtain ⟨hwE, hgE⟩ := LangB_eps_inv hR8
  rcases LangB_opt_inv hO with hOin | ⟨hwO, hgO⟩
  · obtain ⟨gB', hgO, hBin⟩ := LangB_group_inv hOin
    obtain ⟨wsp, wb1, gsp, gb1, hv1, hq1, hsp, hb1⟩ := LangB_cat_inv hBin
    obtain ⟨hgsp, hallsp⟩ := LangB_star_all wsp hsp
    obtain ⟨wlb, wb2, glb, gb2, hv2, hq2, hlb, hb2⟩ := LangB_cat_inv hb1
    obtain ⟨xlb, hxlb, hglb, htlb⟩ := LangB_cls_inv hlb
    obtain ⟨wm1, wb3, gm1, gb3, hv3, hq3, hm1, hb3⟩ := LangB_cat_inv hb2
    obtain ⟨hm1ne, hgm1, hm1all⟩ := LangB_plusC_inv hm1
    obtain ⟨wcl, wb4, gcl, gb4, hv4, hq4, hcl, hb4⟩ := LangB_cat_inv hb3
    obtain ⟨xcl, hxcl, hgcl, htcl⟩ := LangB_cls_inv hcl
    obtain ⟨wm2, wb5, gm2, gb5, hv5, hq5, hm2, hb5⟩ := LangB_cat_inv hb4
    obtain ⟨hgm2, hm2all⟩ := LangB_star_all wm2 hm2
    obtain ⟨wrb, wb6, grb, gb6, hv6, hq6, hrb, hb6⟩ := LangB_cat_inv hb5
    obtain ⟨xrb, hxrb, hgrb, htrb⟩ := LangB_cls_inv hrb
    obtain ⟨hwb6, hgb6⟩ := LangB_eps_inv hb6
    have hxlb' : xlb = '[' := by simpa [CharClass.test] using htlb
    have hxcl' : xcl = ':' := by simpa [CharClass.test] using htcl
    have hxrb' : xrb = ']' := by simpa [CharClass.test] using htrb
    subst hwA hwB2 hwE hw1 hw2 hw3 hw4 hw5 hw6 hw7 hw8 hxsc hwb6
    subst hv1 hv2 hv3 hv4 hv5 hv6 hxlb hxcl hxrb hxlb' hxcl' hxrb'
    refine ⟨wT, wsp, wm1, wm2, wS2 ++ (wV ++ (wS3 ++ ([xsc] ++ []))), ?_, hts,
      hallsp, hm1ne⟩
    simp [List.append_assoc]
  · subst hgA hgT hgT' hgB2 hgO hgS2 hgV hgV' hgS3 hgSm hgE
    subst hg1 hg2 hg3 hg4 hg5 hg6 hg7 hg8
    simp [groupTruthy, lookupG] at htr

theorem digit_not_apos {c : Char} (h : CharClass.test .digit c = true) :
    (c == '\x27') = false := by
  cases hc : c == '\x27' with
  | false => rfl
  | true =>
    have hcc : c = '\x27' := by simpa using hc
    subst hcc
    exact absurd h (by decide)

theorem assignPat_inv {p : Option Char} {w : List Char} {n : Option Char}
    {g : List (Nat × String)} (h : LangB assignPat p w n g) :
    ∃ u inner ds,
      w = "assign".data ++ (u ++ ('(' :: (inner ++ (')' :: (ds ++ [';']))))) ∧
      ds ≠ [] ∧ ∀ c ∈ ds, CharClass.test .digit c = true := by
  obtain ⟨wA, wR1, gA, gR1, hw1, hg1, hA, hR1⟩ := LangB_cat_inv h
  obtain ⟨hwA, hgA, hbA⟩ := LangB_wb_inv hA
  obtain ⟨wK, wR2, gK, gR2, hw2, hg2, hK, hR2⟩ := LangB_cat_inv hR1
  obtain ⟨hwK, hgK⟩ := rstr_inv hK
  obtain ⟨wB2, wR3, gB2, gR3, hw3, hg3, hB2, hR3⟩ := LangB_cat_inv hR2
  obtain ⟨hwB2, hgB2, hbB2⟩ := LangB_wb_inv hB2
  obtain ⟨sp1, wR4, gsp1, gR4, hw4, hg4, hsp1, hR4⟩ := LangB_cat_inv hR3
  obtain ⟨hsp1ne, hgsp1, hsp1all⟩ := LangB_plusC_inv hsp1
  obtain ⟨idw, wR5, gid, gR5, hw5, hg5, hid, hR5⟩ := LangB_cat_inv hR4
  obtain ⟨hidne, hgid, hidall⟩ := LangB_plusC_inv hid
  obtain ⟨sp2, wR6, gsp2, gR6, hw6, hg6, hsp2, hR6⟩ := LangB_cat_inv hR5
  obtain ⟨hgsp2, hsp2all⟩ := LangB_star_all sp2 hsp2
  obtain ⟨weq, wR7, geq, gR7, hw7, hg7, heq, hR7⟩ := LangB_cat_inv hR6
  obtain ⟨xeq, hxeq, hgeq, hteq⟩ := LangB_cls_inv heq
  obtain ⟨sp3, wR8, gsp3, gR8, hw8, hg8, hsp3, hR8⟩ := LangB_cat_inv hR7
  obtain ⟨hgsp3, hsp3all⟩ := LangB_star_all sp3 hsp3
  obtain ⟨wlp, wR9, glp, gR9, hw9, hg9, hlp, hR9⟩ := LangB_cat_inv hR8
  obtain ⟨xlp, hxlp, hglp, htlp⟩ := LangB_cls_inv hlp
  obtain ⟨inner, wR10, ginn, gR10, hw10, hg10, hinn, hR10⟩ := LangB_cat_inv hR9
  obtain ⟨hginn, hinnall⟩ := LangB_star_all inner hinn
  obtain ⟨wrp, wR11, grp, gR11, hw11, hg11, hrp, hR11⟩ := LangB_cat_inv hR10
  obtain ⟨xrp, hxrp, hgrp, htrp⟩ := LangB_cls_inv hrp
  obtain ⟨ds, wR12, gds, gR12, hw12, hg12, hds, hR12⟩ := LangB_cat_inv hR11
  obtain ⟨hdsne, hgds, hdsall⟩ := LangB_plusC_inv hds
  obtain ⟨wsc, wR13, gsc, gR13, hw13, hg13, hsc, hR13⟩ := LangB_cat_inv hR12
  obtain ⟨xsc, hxsc, hgsc, htsc⟩ := LangB_cls_inv hsc
  obtain ⟨hwE, hgE⟩ := LangB_eps_inv hR13
  have hxlp' : xlp = '(' := by simpa [CharClass.test] using htlp
  have hxrp' : xrp = ')' := by simpa [CharClass.test] using htrp
  have hxsc' : xsc = ';' := by simpa [CharClass.test] using htsc
  subst hwA hwK hwB2 hwE hw1 hw2 hw3 hw4 hw5 hw6 hw7 hw8 hw9 hw10 hw11 hw12
  subst hw13 hxeq hxlp hxrp hxsc hxlp' hxrp' hxsc'
  refine ⟨sp1 ++ (idw ++ (sp2 ++ (xeq :: sp3))), inner, ds, ?_, hdsne, hdsall⟩
  simp [List.append_assoc]

/-- C4: the scalar-type rule fires only when a bracketed bit-range (with a
colon inside) actually follows the scalar type keyword: the line
`"integer [31:0] b;"` yields exactly one diagnostic naming `integer` and
`b`, the line `"integer a;"` yields none, and whenever the rule emits
anything the line decomposes as type keyword, optional whitespace, then a
bracketed range. -/
theorem c4_scalar_rule :
    lint_rtl "integer [31:0] b;" =
      [⟨0, scalarMsg 0 "integer" "b", scalarSugg "b"⟩] ∧
    lint_rtl "integer a;" = [] ∧
    ∀ (i : Nat) (line : String), ruleScalar i line ≠ [] →
      ∃ pre t sp1 m1 m2 rest,
        line.data = pre ++ (t ++ (sp1 ++ ('[' :: (m1 ++ (':' ::
          (m2 ++ (']' :: rest))))))) ∧
        (t = "integer".data ∨ t = "time".data ∨ t = "real".data) ∧
        (∀ c ∈ sp1, CharClass.test .space c = true) ∧ m1 ≠ [] := by
  refine ⟨by decide, by decide, ?_⟩
  intro i line hne
  unfold ruleScalar at hne
  cases hr : research scalarPat line with
  | none => rw [hr] at hne; simp at hne
  | some gs =>
    rw [hr] at hne
    dsimp only at hne
    cases htr : groupTruthy gs 2 with
    | false => rw [if_neg (by simp [htr])] at hne; simp at hne
    | true =>
      obtain ⟨pre, w, post, hsplit, hL⟩ := research_sound hr
      obtain ⟨t, sp1, m1, m2, rest, hw, hts, hsp, hm1⟩ := scalarPat_inv hL htr
      refine ⟨pre, t, sp1, m1, m2, rest ++ post, ?_, hts, hsp, hm1⟩
      rw [hsplit, hw]
      simp [List.append_assoc]

/-- Witness for the general part of `c4_scalar_rule` at a concrete line. -/
theorem c4_scalar_rule_witness :
    ∃ pre t sp1 m1 m2 rest,
      ("integer [31:0] b;" : String).data = pre ++ (t ++ (sp1 ++ ('[' ::
        (m1 ++ (':' :: (m2 ++ (']' :: rest))))))) ∧
      (t = "integer".data ∨ t = "time".data ∨ t = "real".data) ∧
      (∀ c ∈ sp1, CharClass.test .space c = true) ∧ m1 ≠ [] :=
  c4_scalar_rule.2.2 0 "integer [31:0] b;" (by decide)

/-- C8: the invalid-literal rule matches `"assign y = (4)55;"` (one
diagnostic), does not match `"assign y = 4'b0101;"`, and whenever it fires
the matched text ends with a closing parenthesis followed by one or more
digits — never an apostrophe base specifier — and the terminator. -/
theorem c8_invalid_literal :
    lint_rtl "assign y = (4)55;" = [⟨0, assignMsg 0, assignSugg⟩] ∧
    lint_rtl "assign y = 4'b0101;" = [] ∧
    ∀ (i : Nat) (line : String), ruleAssign i line ≠ [] →
      ∃ pre u inner ds post,
        line.data = pre ++ ("assign".data ++ (u ++ ('(' :: (inner ++
          (')' :: (ds ++ (';' :: post))))))) ∧
        ds ≠ [] ∧ (∀ c ∈ ds, CharClass.test .digit c = true) ∧
        ∀ c ∈ ds, (c == '\x27') = false := by
  refine ⟨by decide, by decide, ?_⟩
  intro i line hne
  unfold ruleAssign at hne
  cases hr : research assignPat line with
  | none => rw [hr] at hne; simp at hne
  | some gs =>
    obtain ⟨pre, w, post, hsplit, hL⟩ := research_sound hr
    obtain ⟨u, inner, ds, hw, hdsne, hdsall⟩ := assignPat_inv hL
    refine ⟨pre, u, inner, ds, post, ?_, hdsne, hdsall,
      fun c hc => digit_not_apos (hdsall c hc)⟩
    rw [hsplit, hw]
    simp [List.append_assoc]

/-- Witness for the general part of `c8_invalid_literal` at a concrete
line. -/
theorem c8_invalid_literal_witness :
    ∃ pre u inner ds post,
      ("assign y = (4)55;" : String).data = pre ++ ("assign".data ++ (u ++
        ('(' :: (inner ++ (')' :: (ds ++ (';' :: post))))))) ∧
      ds ≠ [] ∧ (∀ c ∈ ds, CharClass.test .digit c = true) ∧
      ∀ c ∈ ds, (c == '\x27') = false :=
  c8_invalid_literal.2.2 0 "assign y = (4)55;" (by decide)


end RtlLint
